import Mathlib

/-!
Verification of the RSA key-generation core in `src/spec/pkcs1.rs`.

The Rust code works on `BigUint`/`BigInt` (arbitrary-precision integers,
assumed correct library collaborators), which we embed as `Nat`/`Int`.
Rust `loop`s with no static bound become fuel-consuming recursions
returning `Option` (`none` = the loop has not finished within the fuel);
the process-wide random source becomes an explicit list of draws.
`BigUint::modpow` is embedded as a square-and-multiply function `powMod`
together with the proof `powMod_eq` that it computes `b ^ e % n`, so that
all definitions stay executable on concrete inputs of cryptographic size.

Definitions come first, then the theorems about them.
-/

/-- Square-and-multiply helper for `powMod`; structural recursion on fuel,
halving the exponent each step. -/
def powModAux : Nat → Nat → Nat → Nat → Nat
  | 0, _, _, n => 1 % n
  | fuel+1, b, e, n =>
    if e = 0 then 1 % n
    else
      let h := powModAux fuel b (e / 2) n
      if e % 2 = 1 then h * h % n * b % n else h * h % n

/-- Model of `BigUint::modpow(self, exponent, modulus)`. -/
def powMod (b e n : Nat) : Nat := powModAux e b e n

/-- Helper for `bitLen`; structural recursion on fuel, halving each step. -/
def bitLenAux : Nat → Nat → Nat
  | 0, _ => 0
  | fuel+1, n => if n = 0 then 0 else bitLenAux fuel (n / 2) + 1

/-- Model of `BigUint::bits()`: the bit length of `n` (`0` for `0`). -/
def bitLen (n : Nat) : Nat := bitLenAux n n

/-- The base loop of `prime_test_of_fermat`: bases `b = 2, 3, ...`,
breaking as soon as `b >= 8 || b > n`; six units of fuel reach the
break condition from `b = 2`. -/
def fermatAux (n nm1 : Nat) : Nat → Nat → Bool
  | _, 0 => true
  | b, fuel+1 =>
    if 8 ≤ b ∨ n < b then true
    else if powMod b nm1 n ≠ 1 then false
    else fermatAux n nm1 (b+1) fuel

/-- Function `prime_test_of_fermat` from the source: checks `b^(n-1) ≡ 1 (mod n)`
for the bases `2 ≤ b ≤ 7` with `b ≤ n`. -/
def prime_test_of_fermat (n : Nat) : Bool := fermatAux n (n - 1) 2 6

/-- The inner `while &n_minus_1 != x0` loop of `prime_test_of_miller`.
State: `x` (the running square), `r` (the accumulator), `E` (the mutable
`n_minus_1`, shifted right each pass).  Returns `none` when the loop hits
`return false` (the square-root-of-unity check), otherwise `some r`.
The check compares `s` against the current, already-shifted `E`, exactly
as the source does. -/
def millerLoop (n : Nat) : Nat → Nat → Nat → Nat → Option Nat
  | 0, _, r, _ => some r
  | fuel+1, x, r, E =>
    if E = 0 then some r
    else
      let r' := if E % 2 = 1 then r * x % n else r
      let s := x
      let x' := x * x % n
      if x' = 1 ∧ ¬(s = 1 ∨ s = E) then none
      else millerLoop n fuel x' r' (E / 2)

/-- The outer base loop of `prime_test_of_miller`: bases `b = 2, 3`,
breaking when `b >= 4` or `b >= n_minus_1`; note that `E` is the
*mutable* `n_minus_1`, which a completed inner loop leaves at `0`. -/
def millerOuter (n : Nat) : Nat → Nat → Nat → Bool
  | 0, _, _ => true
  | fuel+1, b, E =>
    if 4 ≤ b then true
    else if E ≤ b then true
    else
      match millerLoop n E b 1 E with
      | none => false
      | some r => if r ≠ 1 then false else millerOuter n fuel (b+1) 0

/-- Function `prime_test_of_miller` from the source. -/
def prime_test_of_miller (n : Nat) : Bool :=
  if n % 2 = 0 then false
  else millerOuter n 2 2 (n - 1)

/-- Function `is_prime` from the source: odd, passes the Fermat screen, passes the
Miller screen. -/
def is_prime (n : Nat) : Bool :=
  if n % 2 = 0 then false
  else if ¬prime_test_of_fermat n then false
  else if ¬prime_test_of_miller n then false
  else true

/-- Fuel-consuming version of the recursive `Rsa::gcd`; each step the
argument sum strictly decreases, so `a + b + 1` fuel always suffices. -/
def gcdAux : Nat → Nat → Nat → Nat
  | 0, a, b => max a b
  | fuel+1, a, b =>
    let mx := if b < a then a else b
    let mn := if b < a then b else a
    if mn = 0 then mx else gcdAux fuel mn (mx % mn)

/-- Function `Rsa::gcd` from the source: plain Euclidean recursion on
`(min, max % min)`. -/
def Rsa.gcd (a b : Nat) : Nat := gcdAux (a + b + 1) a b

/-- The `while !r.is_zero()` loop of `Rsa::gcd_ex`.  State
`(d, r, u, v, s, t)` as in the source; one step performs
`q, r = divmod(d, r)` (truncated division, as for `BigInt`) and rotates
the Bézout accumulators.  `r` strictly decreases, so `r.toNat + 1` fuel
suffices. -/
def gcdExLoop : Nat → Int → Int → Int → Int → Int → Int → Int × Int × Int
  | 0, d, _, u, v, _, _ => (d, u, v)
  | fuel+1, d, r, u, v, s, t =>
    if r = 0 then (d, u, v)
    else gcdExLoop fuel r (d.tmod r) s t (u - d.tdiv r * s) (v - d.tdiv r * t)

/-- Function `Rsa::gcd_ex` from the source: iterative extended Euclid on
`(max, min)`, swapping the Bézout coefficients back when `a ≤ b`. -/
def Rsa.gcd_ex (a b : Int) : Int × Int × Int :=
  let d0 := if b < a then a else b
  let r0 := if b < a then b else a
  let res := gcdExLoop (r0.toNat + 1) d0 r0 1 0 0 1
  if b < a then res else (res.1, res.2.2, res.2.1)

/-- The `Key` struct from the source. -/
structure Key where
  p : Nat
  q : Nat
  n : Nat
  e : Nat
  d : Nat
deriving DecidableEq

/-- Value `λ(n) = (p - 1) * (q - 1)`, as computed by `Rsa::init` and
`Rsa::check`. -/
def lam (k : Key) : Nat := (k.p - 1) * (k.q - 1)

/-- Function `Rsa::ep`: the raw encryption primitive `m^e mod n`. -/
def Rsa.ep (k : Key) (m : Nat) : Nat := powMod m k.e k.n

/-- Function `Rsa::dp`: the raw decryption primitive `c^d mod n`. -/
def Rsa.dp (k : Key) (c : Nat) : Nat := powMod c k.d k.n

/-- The probe loop of `Rsa::check`: round-trips `i_m = 0, 1, ..., 8`;
ten units of fuel reach the `i_m > 8` break from `i_m = 0`. -/
def probeLoop (k : Key) : Nat → Nat → Bool
  | 0, _ => true
  | fuel+1, i =>
    if 8 < i then true
    else if Rsa.dp k (Rsa.ep k i) ≠ i then false
    else probeLoop k fuel (i+1)

/-- Function `Rsa::check` from the source: `e*d mod λ = 1`, then the probe
round-trip.  (For `λ = 0` the Rust `%` would panic; `Rsa::init` never
produces such a key, see `edLoop`.) -/
def Rsa.check (k : Key) : Bool :=
  if k.e * k.d % lam k ≠ 1 then false
  else probeLoop k 10 0

/-- Model of `rng.gen_biguint_range(&lo, &hi)`: maps an arbitrary draw
`r` into `[lo, hi)`.  Every value of the half-open range is reachable and
no value outside it is, which is all the proofs rely on. -/
def genRange (lo hi r : Nat) : Nat := lo + r % (hi - lo)

/-- Function `random_prime` from the source, consuming one draw per candidate
until `is_prime` accepts.  For `bits < 2` the Rust `(bits >> 1) - 1`
underflows on `u64` and panics, modelled as `none`. -/
def random_prime (bits : Nat) : List Nat → Option (Nat × List Nat)
  | [] => none
  | r :: rs =>
    if bits < 2 then none
    else
      let lo := 2 ^ ((bits >>> 1) - 1)
      let hi := 2 ^ ((bits >>> 1) + 1)
      let cand := genRange lo hi r
      if is_prime cand then some (cand, rs) else random_prime bits rs

/-- Function `Rsa::calculate_e` from the source: draw `u` uniformly from `[1, n)`
until `gcd(l, u) = 1`.  For `n ≤ 1` the Rust `gen_biguint_range(&1, n)`
would panic, modelled as `none`. -/
def Rsa.calculate_e (l n : Nat) : List Nat → Option (Nat × List Nat)
  | [] => none
  | r :: rs =>
    if n ≤ 1 then none
    else
      let u := genRange 1 n r
      if Rsa.gcd l u = 1 then some (u, rs) else Rsa.calculate_e l n rs

/-- Function `Rsa::calculate_d` from the source: take the Bézout coefficient
paired with `e` from `gcd_ex(l, e)`, reduce it modulo `n` (`BigInt %` is
truncated), re-add `n` if negative, and convert back to `BigUint`. -/
def Rsa.calculate_d (l n e : Nat) : Nat :=
  let y := (Rsa.gcd_ex (l : Int) (e : Int)).2.2
  let d1 := y.tmod (n : Int)
  let d2 := if d1 < 0 then d1 + n else d1
  d2.toNat

/-- The first loop of `Rsa::init`: sample `p`, `q`, retry on `p = q`,
compute `n = p * q`, retry until `bits == n.bits()`. -/
def pqLoop (bits : Nat) : Nat → List Nat → Option (Nat × Nat × Nat × List Nat)
  | 0, _ => none
  | fuel+1, rng =>
    match random_prime bits rng with
    | none => none
    | some (p, rng1) =>
      match random_prime bits rng1 with
      | none => none
      | some (q, rng2) =>
        if p = q then pqLoop bits fuel rng2
        else if bits = bitLen (p * q) then some (p, q, p * q, rng2)
        else pqLoop bits fuel rng2

/-- The second loop of `Rsa::init`: sample `e`, derive `d`, retry until
`e * d mod l = 1`.  For `l = 0` the Rust `%` panics (modelled as `none`);
this is unreachable because `pqLoop` never returns `p = q = 1`. -/
def edLoop (l n : Nat) : Nat → List Nat → Option (Nat × Nat × List Nat)
  | 0, _ => none
  | fuel+1, rng =>
    match Rsa.calculate_e l n rng with
    | none => none
    | some (e, rng1) =>
      if l = 0 then none
      else if e * Rsa.calculate_d l n e % l = 1 then some (e, Rsa.calculate_d l n e, rng1)
      else edLoop l n fuel rng1

/-- Function `Rsa::init` from the source: the two loops in sequence, then the
`Key` record. -/
def Rsa.init (bits : Nat) (fuel1 fuel2 : Nat) (rng : List Nat) : Option (Key × List Nat) :=
  match pqLoop bits fuel1 rng with
  | none => none
  | some (p, q, n, rng1) =>
    match edLoop ((p - 1) * (q - 1)) n fuel2 rng1 with
    | none => none
    | some (e, d, rng2) => some (⟨p, q, n, e, d⟩, rng2)

/-- Function `Rsa::new` from the source: run `init`, retry until `check` passes. -/
def Rsa.new (bits : Nat) : Nat → Nat → Nat → List Nat → Option Key
  | 0, _, _, _ => none
  | fuel+1, fuel1, fuel2, rng =>
    match Rsa.init bits fuel1 fuel2 rng with
    | none => none
    | some (k, rng1) => if Rsa.check k then some k else Rsa.new bits fuel fuel1 fuel2 rng1

/-- The half-open sampling range of `random_prime`. -/
def inRange (bits x : Nat) : Prop :=
  2 ^ ((bits >>> 1) - 1) ≤ x ∧ x < 2 ^ ((bits >>> 1) + 1)

/-- Everything `Rsa::init` establishes about a key it returns, regardless
of the random draws. -/
def InitFacts (bits : Nat) (k : Key) : Prop :=
  k.n = k.p * k.q ∧ k.p ≠ k.q ∧ bitLen k.n = bits ∧
  is_prime k.p = true ∧ is_prime k.q = true ∧
  inRange bits k.p ∧ inRange bits k.q ∧
  lam k ≠ 0 ∧ 1 ≤ k.e ∧ k.e < k.n ∧ Rsa.gcd (lam k) k.e = 1 ∧
  k.d = Rsa.calculate_d (lam k) k.n k.e ∧ k.e * k.d % lam k = 1

/-- Two-adic valuation helper (fuel-based). -/
def nu2 : Nat → Nat → Nat
  | 0, _ => 0
  | fuel+1, n => if n % 2 = 1 ∨ n = 0 then 0 else nu2 fuel (n / 2) + 1

/-- Odd-part helper (fuel-based). -/
def oddPart : Nat → Nat → Nat
  | 0, n => n
  | fuel+1, n => if n % 2 = 1 ∨ n = 0 then n else oddPart fuel (n / 2)

/-- Exponent `s` with `n - 1 = 2^s * r`, `r` odd. -/
def mrS (n : Nat) : Nat := nu2 (n - 1) (n - 1)

/-- Odd part `r` with `n - 1 = 2^s * r`, `r` odd. -/
def mrR (n : Nat) : Nat := oddPart (n - 1) (n - 1)

/-- Modelled from the spec's wording of the Miller–Rabin screen (claim
C5): base `b` is not a Miller–Rabin witness for `n` when, writing
`n - 1 = 2^s * r` with `r` odd, the squaring chain starting at
`b^r mod n` exhibits no non-trivial square root of unity and the final
residue `b^(n-1) mod n` is `1`. -/
def mrNonWitness (b n : Nat) : Prop :=
  powMod b (n - 1) n = 1 ∧
  ∀ i < mrS n, powMod b (2 ^ (i+1) * mrR n) n = 1 →
    (powMod b (2 ^ i * mrR n) n = 1 ∨ powMod b (2 ^ i * mrR n) n = n - 1)

instance (b n : Nat) : Decidable (mrNonWitness b n) := by
  unfold mrNonWitness
  infer_instance

/-- An 8-bit key that `Rsa::new` produces from the draws `[3, 5, 10]`:
`p = 11`, `q = 13`, `n = 143`, `e = d = 11`. -/
def goodKey : Key := ⟨11, 13, 143, 11, 11⟩

/-- A 52-bit key that `Rsa::new` produces from the draws
`[14509589, 13295655, 750178332174490]`.  Its `p = 48064021 = 12007 * 4003`
is composite: it passes the Fermat screen for all bases `2..7` and the
Miller screen, because every base order modulo `12007` and `4003`
divides `p - 1`; but `λ(12007) = 12006 = 2*3^2*23*29` has a factor `3^2`
that `(p-1)*(q-1)` misses, so decryption fails on some plaintexts. -/
def badKey : Key := ⟨48064021, 46850087, 2251803565419827, 750178332174491, 1035473771576891⟩

set_option maxRecDepth 10000

theorem powModAux_eq (fuel : Nat) : ∀ e, e ≤ fuel → ∀ b n, powModAux fuel b e n = b ^ e % n := by
  induction fuel with
  | zero =>
    intro e he b n
    interval_cases e
    simp [powModAux]
  | succ fuel ih =>
    intro e he b n
    by_cases he0 : e = 0
    · subst he0; simp [powModAux]
    · have hdiv : e / 2 ≤ fuel := by omega
      have hrec : powModAux fuel b (e / 2) n = b ^ (e / 2) % n := ih (e / 2) hdiv b n
      have hsplit : e / 2 + e / 2 + e % 2 = e := by omega
      by_cases hpar : e % 2 = 1
      · have hexp : e / 2 + e / 2 + 1 = e := by omega
        calc powModAux (fuel+1) b e n
            = (b ^ (e/2) % n) * (b ^ (e/2) % n) % n * b % n := by
              simp [powModAux, he0, hpar, hrec]
          _ = (b ^ (e/2) * b ^ (e/2)) % n * b % n := by rw [← Nat.mul_mod]
          _ = (b ^ (e/2) * b ^ (e/2) * b) % n := by rw [Nat.mod_mul_mod]
          _ = b ^ e % n := by rw [← pow_add, ← pow_succ, hexp]
      · have hpar0 : e % 2 = 0 := by omega
        have hexp : e / 2 + e / 2 = e := by omega
        calc powModAux (fuel+1) b e n
            = (b ^ (e/2) % n) * (b ^ (e/2) % n) % n := by
              simp [powModAux, he0, hpar, hrec]
          _ = (b ^ (e/2) * b ^ (e/2)) % n := by rw [← Nat.mul_mod]
          _ = b ^ e % n := by rw [← pow_add, hexp]

/-- Function `powMod` agrees with mathematical modular exponentiation. -/
theorem powMod_eq (b e n : Nat) : powMod b e n = b ^ e % n :=
  powModAux_eq e e le_rfl b n

theorem bitLenAux_zero : ∀ fuel, bitLenAux fuel 0 = 0
  | 0 => rfl
  | _+1 => rfl

theorem bitLenAux_spec (fuel : Nat) :
    ∀ n, n ≤ fuel → n < 2 ^ bitLenAux fuel n ∧ (n = 0 ∨ 2 ^ (bitLenAux fuel n - 1) ≤ n) := by
  induction fuel with
  | zero =>
    intro n hn
    interval_cases n
    simp [bitLenAux]
  | succ fuel ih =>
    intro n hn
    by_cases hn0 : n = 0
    · subst hn0; simp [bitLenAux]
    · have h2 : n / 2 ≤ fuel := by omega
      obtain ⟨ihlt, ihge⟩ := ih (n / 2) h2
      have hb : bitLenAux (fuel+1) n = bitLenAux fuel (n / 2) + 1 := by
        simp [bitLenAux, hn0]
      refine ⟨?_, Or.inr ?_⟩
      · rw [hb, pow_succ]
        omega
      · rw [hb, Nat.add_sub_cancel]
        rcases ihge with h0 | hge
        · rw [h0, bitLenAux_zero]
          simpa using Nat.one_le_iff_ne_zero.mpr hn0
        · have hpos : 0 < bitLenAux fuel (n / 2) := by
            by_contra hz
            have hzz : bitLenAux fuel (n / 2) = 0 := by omega
            rw [hzz] at ihlt
            simp at ihlt
            have hp2 : 0 < 2 ^ (bitLenAux fuel (n / 2) - 1) := pow_pos (by norm_num) _
            omega
          have hstep : 2 ^ (bitLenAux fuel (n / 2) - 1) * 2 ≤ (n / 2) * 2 :=
            Nat.mul_le_mul_right 2 hge
          have heq : bitLenAux fuel (n / 2) = bitLenAux fuel (n / 2) - 1 + 1 := by omega
          rw [heq, pow_succ]
          omega

/-- Function `bitLen` agrees with Mathlib's bit-length function `Nat.size`. -/
theorem bitLen_eq_size (n : Nat) : bitLen n = Nat.size n := by
  obtain ⟨hlt, hge⟩ := bitLenAux_spec n n le_rfl
  by_cases hn0 : n = 0
  · subst hn0; simp [bitLen, bitLenAux]
  · rcases hge with h0 | hge
    · exact absurd h0 hn0
    · have h1 : Nat.size n ≤ bitLen n := Nat.size_le.mpr hlt
      have hpos : 0 < bitLen n := by
        by_contra hz
        have : bitLen n = 0 := by omega
        rw [bitLen] at this
        rw [this] at hlt
        omega
      have h2 : bitLen n - 1 < Nat.size n := Nat.lt_size.mpr hge
      omega

theorem gcdAux_eq : ∀ fuel a b, a + b < fuel → gcdAux fuel a b = Nat.gcd a b := by
  intro fuel
  induction fuel with
  | zero =>
    intro a b hab
    exact absurd hab (Nat.not_lt_zero _)
  | succ fuel ih =>
    intro a b hab
    by_cases hba : b < a
    · simp only [gcdAux, if_pos hba]
      by_cases hb0 : b = 0
      · simp [hb0]
      · rw [if_neg hb0]
        have h2 : 1 ≤ a / b := (Nat.one_le_div_iff (Nat.pos_of_ne_zero hb0)).mpr
          (Nat.le_of_lt hba)
        have h3 : b ≤ b * (a / b) := Nat.le_mul_of_pos_right b h2
        have h4 := Nat.div_add_mod a b
        have hfuel : b + a % b < fuel := by omega
        rw [ih b (a % b) hfuel]
        rw [Nat.gcd_comm b (a % b), ← Nat.gcd_rec b a, Nat.gcd_comm b a]
    · simp only [gcdAux, if_neg hba]
      by_cases ha0 : a = 0
      · simp [ha0]
      · rw [if_neg ha0]
        have h2 : 1 ≤ b / a := (Nat.one_le_div_iff (Nat.pos_of_ne_zero ha0)).mpr
          (Nat.le_of_not_lt hba)
        have h3 : a ≤ a * (b / a) := Nat.le_mul_of_pos_right a h2
        have h4 := Nat.div_add_mod b a
        have hfuel : a + b % a < fuel := by omega
        rw [ih a (b % a) hfuel]
        rw [Nat.gcd_comm a (b % a), ← Nat.gcd_rec a b]

/-- Function `Rsa::gcd` computes the mathematical gcd. -/
theorem Rsa.gcd_eq (a b : Nat) : Rsa.gcd a b = Nat.gcd a b :=
  gcdAux_eq (a + b + 1) a b (by omega)

theorem mul_mod_pow_mod (A B k n : Nat) : (A % n) * (B % n) ^ k % n = A * B ^ k % n :=
  (Nat.mod_modEq A n).mul ((Nat.mod_modEq B n).pow k)

theorem millerLoop_zero_exp (n fuel x r : Nat) : millerLoop n fuel x r 0 = some r := by
  cases fuel <;> simp [millerLoop]

/-- The inner Miller loop, when it finishes, has accumulated
`r * x ^ E mod n` in its accumulator. -/
theorem millerLoop_spec (n : Nat) (hn : 0 < n) :
    ∀ fuel E x r out, E ≤ fuel → r < n → x < n →
      millerLoop n fuel x r E = some out → out = r * x ^ E % n := by
  intro fuel
  induction fuel with
  | zero =>
    intro E x r out hE hr hx h
    have hE0 : E = 0 := by omega
    subst hE0
    rw [millerLoop_zero_exp, Option.some.injEq] at h
    subst h
    simp [Nat.mod_eq_of_lt hr]
  | succ fuel ih =>
    intro E x r out hE hr hx h
    by_cases hE0 : E = 0
    · subst hE0
      rw [millerLoop_zero_exp, Option.some.injEq] at h
      subst h
      simp [Nat.mod_eq_of_lt hr]
    · have hstep : millerLoop n (fuel+1) x r E =
          if x * x % n = 1 ∧ ¬(x = 1 ∨ x = E) then none
          else millerLoop n fuel (x * x % n) (if E % 2 = 1 then r * x % n else r) (E / 2) := by
        simp only [millerLoop, if_neg hE0]
      rw [hstep] at h
      have hx' : x * x % n < n := Nat.mod_lt _ hn
      have hE' : E / 2 ≤ fuel := by omega
      by_cases hpar : E % 2 = 1
      · rw [if_pos hpar] at h
        by_cases hsq : (x * x % n = 1 ∧ ¬(x = 1 ∨ x = E))
        · rw [if_pos hsq] at h
          exact Option.noConfusion h
        · rw [if_neg hsq] at h
          have hr' : r * x % n < n := Nat.mod_lt _ hn
          have hout := ih (E / 2) (x * x % n) (r * x % n) out hE' hr' hx' h
          rw [hout, mul_mod_pow_mod (r * x) (x * x)]
          congr 1
          have hE2 : 2 * (E / 2) + 1 = E := by omega
          rw [← pow_two, ← pow_mul]
          conv_rhs => rw [← hE2]
          rw [pow_succ]
          ring
      · rw [if_neg hpar] at h
        by_cases hsq : (x * x % n = 1 ∧ ¬(x = 1 ∨ x = E))
        · rw [if_pos hsq] at h
          exact Option.noConfusion h
        · rw [if_neg hsq] at h
          have hout := ih (E / 2) (x * x % n) r out hE' hr hx' h
          have hrr : r % n = r := Nat.mod_eq_of_lt hr
          rw [hout, ← hrr, mul_mod_pow_mod r (x * x)]
          congr 1
          rw [← pow_two, ← pow_mul]
          have hE2 : 2 * (E / 2) = E := by omega
          rw [hE2, hrr]

/-- What acceptance by `prime_test_of_miller` actually guarantees for an
odd `n ≥ 5`: the accumulator of the base-2 pass is `2^(n-1) mod n` and it
was checked to be `1`.  (The loop destroys `n_minus_1` during the base-2
pass, so base `3` is never exercised.) -/
theorem miller_accept_pow (n : Nat) (hodd : n % 2 = 1) (h5 : 5 ≤ n)
    (hacc : prime_test_of_miller n = true) : powMod 2 (n - 1) n = 1 := by
  rw [prime_test_of_miller, if_neg (by omega : ¬n % 2 = 0)] at hacc
  have hunf : millerOuter n 2 2 (n - 1) =
      (if 4 ≤ 2 then true
       else if n - 1 ≤ 2 then true
       else match millerLoop n (n - 1) 2 1 (n - 1) with
         | none => false
         | some r => if r ≠ 1 then false else millerOuter n 1 3 0) := rfl
  rw [hunf, if_neg (by omega : ¬4 ≤ 2), if_neg (by omega : ¬n - 1 ≤ 2)] at hacc
  cases hml : millerLoop n (n - 1) 2 1 (n - 1) with
  | none => rw [hml] at hacc; simp at hacc
  | some r =>
    rw [hml] at hacc
    have hacc2 : (if r ≠ 1 then false else millerOuter n 1 3 0) = true := hacc
    by_cases hr1 : r = 1
    · subst hr1
      have h2 := millerLoop_spec n (by omega) (n - 1) (n - 1) 2 1 1 le_rfl (by omega) (by omega) hml
      rw [one_mul] at h2
      rw [powMod_eq]
      omega
    · rw [if_pos hr1] at hacc2
      simp at hacc2

/-- Function `is_prime` rejects every even number (the `self.bit(0)` test). -/
theorem is_prime_even (n : Nat) (h : n % 2 = 0) : is_prime n = false := by
  simp [is_prime, h]

theorem tmod_neg_lower (y n : Int) (hn : 0 < n) : -n < y.tmod n := by
  cases y with
  | ofNat m =>
    have h0 : (0 : Int) ≤ (Int.ofNat m).tmod n := Int.tmod_nonneg n (Int.ofNat_nonneg m)
    omega
  | negSucc m =>
    cases n with
    | ofNat k =>
      have hk : 0 < k := by
        by_contra hk0
        have : k = 0 := by omega
        subst this
        simp at hn
      have hrfl : (Int.negSucc m).tmod (Int.ofNat k) = -(((m + 1) % k : Nat) : Int) := rfl
      have hmod : (m + 1) % k < k := Nat.mod_lt _ hk
      rw [hrfl]
      have : ((Int.ofNat k) : Int) = (k : Int) := rfl
      omega
    | negSucc k =>
      have : Int.negSucc k < 0 := Int.negSucc_lt_zero k
      omega

/-- Function `calculate_d` lands in `[0, n)` and is congruent modulo `n` to the
Bézout coefficient it was computed from. -/
theorem calculate_d_bounds (l n e : Nat) (hn : 0 < n) :
    Rsa.calculate_d l n e < n ∧
    (n : Int) ∣ ((Rsa.calculate_d l n e : Int) - (Rsa.gcd_ex (l : Int) (e : Int)).2.2) := by
  rw [Rsa.calculate_d]
  generalize (Rsa.gcd_ex (l : Int) (e : Int)).2.2 = y
  have hnz : (0 : Int) < (n : Int) := by exact_mod_cast hn
  have hup : y.tmod n < n := Int.tmod_lt_of_pos y hnz
  have hlow : -(n : Int) < y.tmod n := tmod_neg_lower y n hnz
  have hdvd : (n : Int) ∣ (y.tmod n - y) := by
    have := Int.tmod_add_tdiv y (n : Int)
    refine ⟨-(y.tdiv n), ?_⟩
    linarith
  by_cases hneg : y.tmod n < 0
  · rw [if_pos hneg]
    have h0 : (0 : Int) ≤ y.tmod n + n := by omega
    constructor
    · have : ((y.tmod n + n).toNat : Int) = y.tmod n + n := Int.toNat_of_nonneg h0
      omega
    · have hcast : ((y.tmod n + n).toNat : Int) = y.tmod n + n := Int.toNat_of_nonneg h0
      rw [hcast]
      have hre : y.tmod n + n - y = (y.tmod n - y) + n := by ring
      rw [hre]
      exact dvd_add hdvd dvd_rfl
  · rw [if_neg hneg]
    have h0 : (0 : Int) ≤ y.tmod n := by omega
    have hcast : ((y.tmod n).toNat : Int) = y.tmod n := Int.toNat_of_nonneg h0
    constructor
    · omega
    · rw [hcast]
      exact hdvd

/-- Loop invariant for `gcdExLoop`: starting from nonnegative `(d, r)`
with Bézout representations of `d` and `r` over `(A, B)` and with every
common divisor of `(d, r)` dividing `A` and `B`, the loop returns a
nonnegative common divisor of `A` and `B` with a Bézout representation. -/
theorem gcdExLoop_spec : ∀ fuel (d r u v s t A B : Int),
    0 ≤ d → 0 ≤ r → r.toNat ≤ fuel →
    u * A + v * B = d → s * A + t * B = r →
    (∀ w : Int, w ∣ d → w ∣ r → w ∣ A) →
    (∀ w : Int, w ∣ d → w ∣ r → w ∣ B) →
    0 ≤ (gcdExLoop fuel d r u v s t).1 ∧
    (gcdExLoop fuel d r u v s t).1 ∣ A ∧
    (gcdExLoop fuel d r u v s t).1 ∣ B ∧
    (gcdExLoop fuel d r u v s t).2.1 * A + (gcdExLoop fuel d r u v s t).2.2 * B =
      (gcdExLoop fuel d r u v s t).1 := by
  intro fuel
  induction fuel with
  | zero =>
    intro d r u v s t A B hd hr hrf hbez1 hbez2 hA hB
    have hr0 : r = 0 := by omega
    subst hr0
    simp only [gcdExLoop]
    exact ⟨hd, hA d dvd_rfl (dvd_zero d), hB d dvd_rfl (dvd_zero d), hbez1⟩
  | succ fuel ih =>
    intro d r u v s t A B hd hr hrf hbez1 hbez2 hA hB
    by_cases hr0 : r = 0
    · subst hr0
      simp only [gcdExLoop, if_pos rfl]
      exact ⟨hd, hA d dvd_rfl (dvd_zero d), hB d dvd_rfl (dvd_zero d), hbez1⟩
    · have hrpos : 0 < r := by omega
      have hid := Int.tdiv_add_tmod d r
      have hmodlt : d.tmod r < r := Int.tmod_lt_of_pos d hrpos
      have hmodnn : 0 ≤ d.tmod r := Int.tmod_nonneg r hd
      simp only [gcdExLoop, if_neg hr0]
      refine ih r (d.tmod r) s t (u - d.tdiv r * s) (v - d.tdiv r * t) A B hr hmodnn
        (by omega) hbez2 ?_ ?_ ?_
      · have hmod : d.tmod r = d - r * d.tdiv r := by linarith
        rw [hmod]
        linear_combination hbez1 - d.tdiv r * hbez2
      · intro w hw1 hw2
        have hwd : w ∣ d := by
          have hdd : d = r * d.tdiv r + d.tmod r := by linarith
          rw [hdd]
          exact dvd_add (hw1.mul_right _) hw2
        exact hA w hwd hw1
      · intro w hw1 hw2
        have hwd : w ∣ d := by
          have hdd : d = r * d.tdiv r + d.tmod r := by linarith
          rw [hdd]
          exact dvd_add (hw1.mul_right _) hw2
        exact hB w hwd hw1

/-- Function `Rsa::gcd_ex` returns `(g, x, y)` with `g = gcd(a, b)` and
`a*x + b*y = g`, for nonnegative inputs. -/
theorem gcd_ex_spec (a b : Int) (ha : 0 ≤ a) (hb : 0 ≤ b) :
    (Rsa.gcd_ex a b).1 = Int.gcd a b ∧
    a * (Rsa.gcd_ex a b).2.1 + b * (Rsa.gcd_ex a b).2.2 = (Rsa.gcd_ex a b).1 := by
  by_cases hab : b < a
  · have hdef : Rsa.gcd_ex a b = gcdExLoop (b.toNat + 1) a b 1 0 0 1 := by
      simp [Rsa.gcd_ex, hab]
    obtain ⟨hpos, hdA, hdB, hbez⟩ :=
      gcdExLoop_spec (b.toNat + 1) a b 1 0 0 1 a b ha hb (by omega) (by ring) (by ring)
        (fun w hw1 _ => hw1) (fun w _ hw2 => hw2)
    rw [hdef]
    constructor
    · refine Int.dvd_antisymm hpos (Int.natCast_nonneg _) (Int.dvd_gcd hdA hdB) ?_
      rw [← hbez]
      exact dvd_add (Int.gcd_dvd_left.mul_left _) (Int.gcd_dvd_right.mul_left _)
    · linear_combination hbez
  · have hdef : Rsa.gcd_ex a b =
        ((gcdExLoop (a.toNat + 1) b a 1 0 0 1).1,
         (gcdExLoop (a.toNat + 1) b a 1 0 0 1).2.2,
         (gcdExLoop (a.toNat + 1) b a 1 0 0 1).2.1) := by
      simp [Rsa.gcd_ex, hab]
    obtain ⟨hpos, hdB, hdA, hbez⟩ :=
      gcdExLoop_spec (a.toNat + 1) b a 1 0 0 1 b a hb ha (by omega) (by ring) (by ring)
        (fun w hw1 _ => hw1) (fun w _ hw2 => hw2)
    rw [hdef]
    constructor
    · refine Int.dvd_antisymm hpos (Int.natCast_nonneg _) (Int.dvd_gcd hdA hdB) ?_
      rw [← hbez]
      exact dvd_add (Int.gcd_dvd_right.mul_left _) (Int.gcd_dvd_left.mul_left _)
    · linear_combination hbez

/-- The probe loop, when it returns `true`, has round-tripped every probe
it visited. -/
theorem probeLoop_inv (k : Key) : ∀ fuel i, probeLoop k fuel i = true →
    ∀ m, i ≤ m → m ≤ 8 → m < i + fuel → Rsa.dp k (Rsa.ep k m) = m := by
  intro fuel
  induction fuel with
  | zero =>
    intro i _ m him _ hlt
    omega
  | succ fuel ih =>
    intro i h m him hm8 hlt
    by_cases h8 : 8 < i
    · omega
    · have hstep : probeLoop k (fuel+1) i =
          (if 8 < i then true
           else if Rsa.dp k (Rsa.ep k i) ≠ i then false
           else probeLoop k fuel (i+1)) := rfl
      rw [hstep, if_neg h8] at h
      by_cases hne : Rsa.dp k (Rsa.ep k i) ≠ i
      · rw [if_pos hne] at h
        exact absurd h (by simp)
      · rw [if_neg hne] at h
        by_cases hmi : m = i
        · subst hmi
          exact not_not.mp hne
        · exact ih (i+1) h m (by omega) hm8 (by omega)

/-- Whatever `random_prime` returns was sampled inside the range and
accepted by `is_prime`. -/
theorem random_prime_inv (bits : Nat) : ∀ rng p rest,
    random_prime bits rng = some (p, rest) →
    2 ≤ bits ∧ inRange bits p ∧ is_prime p = true := by
  intro rng
  induction rng with
  | nil =>
    intro p rest h
    simp [random_prime] at h
  | cons r rs ih =>
    intro p rest h
    simp only [random_prime] at h
    split_ifs at h with hbits hp
    · simp only [Option.some.injEq, Prod.mk.injEq] at h
      obtain ⟨hpe, -⟩ := h
      have hlt : 2 ^ ((bits >>> 1) - 1) < 2 ^ ((bits >>> 1) + 1) :=
        Nat.pow_lt_pow_right (by norm_num) (by omega)
      have hmod : r % (2 ^ ((bits >>> 1) + 1) - 2 ^ ((bits >>> 1) - 1)) <
          2 ^ ((bits >>> 1) + 1) - 2 ^ ((bits >>> 1) - 1) := Nat.mod_lt _ (by omega)
      subst hpe
      refine ⟨by omega, ⟨by simp [genRange], ?_⟩, hp⟩
      simp only [genRange]
      omega
    · exact ih p rest h

/-- Whatever `calculate_e` returns lies in `[1, n)` and is coprime to
`l` in the sense of `Rsa::gcd`. -/
theorem calculate_e_inv (l n : Nat) : ∀ rng e rest,
    Rsa.calculate_e l n rng = some (e, rest) →
    2 ≤ n ∧ 1 ≤ e ∧ e < n ∧ Rsa.gcd l e = 1 := by
  intro rng
  induction rng with
  | nil =>
    intro e rest h
    simp [Rsa.calculate_e] at h
  | cons r rs ih =>
    intro e rest h
    simp only [Rsa.calculate_e] at h
    split_ifs at h with hn hg
    · simp only [Option.some.injEq, Prod.mk.injEq] at h
      obtain ⟨hpe, -⟩ := h
      have hmod : r % (n - 1) < n - 1 := Nat.mod_lt _ (by omega)
      subst hpe
      exact ⟨by omega, by simp [genRange], by simp only [genRange]; omega, hg⟩
    · exact ih e rest h

/-- Whatever the prime-sampling loop of `init` returns: two accepted,
in-range, distinct values whose product has exactly the requested bit
length. -/
theorem pqLoop_inv (bits : Nat) : ∀ fuel rng p q n rest,
    pqLoop bits fuel rng = some (p, q, n, rest) →
    n = p * q ∧ p ≠ q ∧ bitLen n = bits ∧
    is_prime p = true ∧ is_prime q = true ∧ inRange bits p ∧ inRange bits q := by
  intro fuel
  induction fuel with
  | zero =>
    intro rng p q n rest h
    simp [pqLoop] at h
  | succ fuel ih =>
    intro rng p q n rest h
    rw [pqLoop] at h
    split at h
    · exact absurd h (by simp)
    next p1 rng1 heq1 =>
      split at h
      · exact absurd h (by simp)
      next q1 rng2 heq2 =>
        obtain ⟨-, hr1, hp1⟩ := random_prime_inv bits rng p1 rng1 heq1
        obtain ⟨-, hr2, hp2⟩ := random_prime_inv bits rng1 q1 rng2 heq2
        split_ifs at h with hpq hbits
        · exact ih rng2 p q n rest h
        · simp only [Option.some.injEq, Prod.mk.injEq] at h
          obtain ⟨hpe, hqe, hne, -⟩ := h
          subst hpe; subst hqe; subst hne
          exact ⟨rfl, hpq, hbits.symm, hp1, hp2, hr1, hr2⟩
        · exact ih rng2 p q n rest h

/-- Whatever the exponent loop of `init` returns: a valid `e` from
`calculate_e`, the derived `d`, and a passed `e*d mod l = 1` check, with
`l ≠ 0` (otherwise the Rust `%` would have panicked). -/
theorem edLoop_inv (l n : Nat) : ∀ fuel rng e d rest,
    edLoop l n fuel rng = some (e, d, rest) →
    l ≠ 0 ∧ 2 ≤ n ∧ 1 ≤ e ∧ e < n ∧ Rsa.gcd l e = 1 ∧
    d = Rsa.calculate_d l n e ∧ e * d % l = 1 := by
  intro fuel
  induction fuel with
  | zero =>
    intro rng e d rest h
    simp [edLoop] at h
  | succ fuel ih =>
    intro rng e d rest h
    rw [edLoop] at h
    split at h
    · exact absurd h (by simp)
    next e1 rng1 heq1 =>
      obtain ⟨hn2, he1, hen, heg⟩ := calculate_e_inv l n rng e1 rng1 heq1
      split_ifs at h with hl0 hed
      · simp only [Option.some.injEq, Prod.mk.injEq] at h
        obtain ⟨hee, hde, -⟩ := h
        subst hee
        subst hde
        exact ⟨hl0, hn2, he1, hen, heg, rfl, hed⟩
      · exact ih rng1 e d rest h

theorem init_inv (bits f1 f2 : Nat) (rng : List Nat) (k : Key) (rest : List Nat)
    (h : Rsa.init bits f1 f2 rng = some (k, rest)) : InitFacts bits k := by
  rw [Rsa.init] at h
  split at h
  · exact absurd h (by simp)
  next p q n rng1 heq1 =>
    split at h
    · exact absurd h (by simp)
    next e d rng2 heq2 =>
      simp only [Option.some.injEq, Prod.mk.injEq] at h
      obtain ⟨hk, -⟩ := h
      obtain ⟨hn, hpq, hbits, hp, hq, hrp, hrq⟩ := pqLoop_inv bits f1 rng p q n rng1 heq1
      obtain ⟨hl0, hn2, he1, hen, heg, hd, hed⟩ :=
        edLoop_inv ((p - 1) * (q - 1)) n f2 rng1 e d rng2 heq2
      subst hk
      exact ⟨hn, hpq, hbits, hp, hq, hrp, hrq, hl0, he1, hen, heg, hd, hed⟩

theorem new_inv (bits : Nat) : ∀ f f1 f2 rng k,
    Rsa.new bits f f1 f2 rng = some k → InitFacts bits k ∧ Rsa.check k = true := by
  intro f
  induction f with
  | zero =>
    intro f1 f2 rng k h
    simp [Rsa.new] at h
  | succ f ih =>
    intro f1 f2 rng k h
    rw [Rsa.new] at h
    split at h
    · exact absurd h (by simp)
    next k1 rng1 heq1 =>
      split_ifs at h with hchk
      · simp only [Option.some.injEq] at h
        subst h
        exact ⟨init_inv bits f1 f2 rng k1 rng1 heq1, hchk⟩
      · exact ih f1 f2 rng1 k h

/-- What a passed `Rsa::check` means: the λ-inverse identity and the
probe round-trips. -/
theorem check_inv (k : Key) (h : Rsa.check k = true) :
    k.e * k.d % lam k = 1 ∧ ∀ m, m ≤ 8 → Rsa.dp k (Rsa.ep k m) = m := by
  rw [Rsa.check] at h
  split_ifs at h with hed
  refine ⟨not_not.mp hed, ?_⟩
  intro m hm
  exact probeLoop_inv k 10 0 h m (by omega) hm (by omega)

/-- Textbook RSA correctness: for genuine distinct primes `p ≠ q` and
`e*d ≡ 1 (mod (p-1)(q-1))`, exponentiation round-trips on all of
`[0, n)`. -/
theorem rsa_roundtrip_core (p q e d n : Nat) (hp : Nat.Prime p) (hq : Nat.Prime q)
    (hne : p ≠ q) (hn : n = p * q) (hed : e * d % ((p - 1) * (q - 1)) = 1) :
    ∀ m, m < n → (m ^ e % n) ^ d % n = m := by
  intro m hm
  set l := (p - 1) * (q - 1) with hl
  have hp2 := hp.two_le
  have hq2 := hq.two_le
  have hlpos : 0 < l := Nat.mul_pos (by omega) (by omega)
  by_cases hl1 : l = 1
  · rw [hl1] at hed
    omega
  have hsplit := Nat.div_add_mod (e * d) l
  have hedc : e * d = l * (e * d / l) + 1 := by omega
  have key : ∀ r s : Nat, r.Prime → l = (r - 1) * s → m ^ (e * d) ≡ m [MOD r] := by
    intro r s hr hls
    by_cases hdvd : r ∣ m
    · have h1 : m ^ (e * d) ≡ 0 [MOD r] :=
        (Nat.modEq_zero_iff_dvd).mpr (dvd_pow hdvd (by omega))
      have h2 : m ≡ 0 [MOD r] := (Nat.modEq_zero_iff_dvd).mpr hdvd
      exact h1.trans h2.symm
    · have hcop : m.Coprime r := Nat.coprime_comm.mp ((hr.coprime_iff_not_dvd).mpr hdvd)
      have heuler : m ^ (r - 1) ≡ 1 [MOD r] := by
        have he := Nat.ModEq.pow_totient hcop
        rwa [Nat.totient_prime hr] at he
      have hexp : l * (e * d / l) + 1 = (r - 1) * (s * (e * d / l)) + 1 := by
        rw [hls]
        ring
      rw [hedc, hexp, pow_succ, pow_mul]
      have h1 : (m ^ (r - 1)) ^ (s * (e * d / l)) ≡ 1 ^ (s * (e * d / l)) [MOD r] :=
        heuler.pow _
      simpa using h1.mul_right m
  have hmp : m ^ (e * d) ≡ m [MOD p] := key p (q - 1) hp rfl
  have hmq : m ^ (e * d) ≡ m [MOD q] := key q (p - 1) hq (by rw [hl]; ring)
  have hcop : Nat.Coprime p q := (Nat.coprime_primes hp hq).mpr hne
  have hmn : m ^ (e * d) ≡ m [MOD n] := by
    rw [hn]
    exact (Nat.modEq_and_modEq_iff_modEq_mul hcop).mp ⟨hmp, hmq⟩
  have h1 : (m ^ e % n) ^ d % n = m ^ (e * d) % n := by
    rw [← Nat.pow_mod, ← pow_mul]
  rw [h1, hmn, Nat.mod_eq_of_lt hm]

/-- C1 (amended): for every key pair returned by `Rsa::new(bits)` *whose
components `p` and `q` are in fact prime*, and every `m` with
`0 ≤ m < n`, decrypting the encryption of `m` returns `m`.  (The claim
as stated, without the primality proviso, fails on the code:
`is_prime` is only a probabilistic screen and `Rsa::new` can return a
key built on a pseudoprime, as the counterexample below shows.) -/
theorem rsa_new_roundtrip_of_primes (bits f f1 f2 : Nat) (rng : List Nat) (k : Key)
    (h : Rsa.new bits f f1 f2 rng = some k) (hp : Nat.Prime k.p) (hq : Nat.Prime k.q) :
    ∀ m, m < k.n → Rsa.dp k (Rsa.ep k m) = m := by
  obtain ⟨hinit, -⟩ := new_inv bits f f1 f2 rng k h
  obtain ⟨hn, hpq, -, -, -, -, -, -, -, -, -, -, hed⟩ := hinit
  have hed' : k.e * k.d % ((k.p - 1) * (k.q - 1)) = 1 := hed
  intro m hm
  rw [Rsa.dp, Rsa.ep, powMod_eq, powMod_eq]
  exact rsa_roundtrip_core k.p k.q k.e k.d k.n hp hq hpq hn hed' m hm

/-- C1 counterexample: `Rsa::new 52` can return `badKey` (first draws
accepted, check passed), whose `p` is the composite pseudoprime
`48064021`, and the plaintext `1789327710308202 < n` does not
round-trip. -/
theorem rsa_new_roundtrip_counterexample :
    Rsa.new 52 1 1 1 [14509589, 13295655, 750178332174490] = some badKey ∧
    1789327710308202 < badKey.n ∧
    Rsa.dp badKey (Rsa.ep badKey 1789327710308202) ≠ 1789327710308202 :=
  ⟨by decide, by decide, by decide⟩

/-- C1 witness: the concrete 8-bit key `⟨11, 13, 143, 11, 11⟩` produced
by `Rsa::new 8` from the draws `[3, 5, 10]` round-trips every plaintext
below its modulus. -/
theorem rsa_new_roundtrip_of_primes_witness :
    Rsa.new 8 1 1 1 [3, 5, 10] = some goodKey ∧
    (∀ m, m < goodKey.n → Rsa.dp goodKey (Rsa.ep goodKey m) = m) :=
  ⟨by decide,
   rsa_new_roundtrip_of_primes 8 1 1 1 [3, 5, 10] goodKey (by decide) (by decide) (by decide)⟩

/-- C2: every key returned by `Rsa::new` satisfies `gcd(e, λ) = 1` and
`e*d mod λ = 1`, with `λ = (p-1)*(q-1)`. -/
theorem rsa_new_exponents (bits f f1 f2 : Nat) (rng : List Nat) (k : Key)
    (h : Rsa.new bits f f1 f2 rng = some k) :
    Nat.gcd k.e (lam k) = 1 ∧ k.e * k.d % lam k = 1 := by
  obtain ⟨hinit, -⟩ := new_inv bits f f1 f2 rng k h
  obtain ⟨-, -, -, -, -, -, -, hl0, -, -, -, -, hed⟩ := hinit
  refine ⟨?_, hed⟩
  have h3 := Nat.div_add_mod (k.e * k.d) (lam k)
  have hsum : k.e * k.d = lam k * (k.e * k.d / lam k) + 1 := by omega
  have h1 : Nat.gcd k.e (lam k) ∣ lam k * (k.e * k.d / lam k) + 1 := by
    rw [← hsum]
    exact (Nat.gcd_dvd_left _ _).mul_right _
  have h2 : Nat.gcd k.e (lam k) ∣ lam k * (k.e * k.d / lam k) :=
    (Nat.gcd_dvd_right _ _).mul_right _
  have hdvd1 : Nat.gcd k.e (lam k) ∣ 1 := by
    have := Nat.dvd_sub' h1 h2
    simpa using this
  exact Nat.dvd_one.mp hdvd1

/-- C2 witness: the 8-bit key from the draws `[3, 5, 10]`. -/
theorem rsa_new_exponents_witness :
    Rsa.new 8 1 1 1 [3, 5, 10] = some goodKey ∧
    (Nat.gcd goodKey.e (lam goodKey) = 1 ∧ goodKey.e * goodKey.d % lam goodKey = 1) :=
  ⟨by decide, rsa_new_exponents 8 1 1 1 [3, 5, 10] goodKey (by decide)⟩

/-- C3: every key returned by `Rsa::new(bits)` has `n = p * q`, distinct
primes `p ≠ q`, and `n` of exactly the requested bit length. -/
theorem rsa_new_modulus (bits f f1 f2 : Nat) (rng : List Nat) (k : Key)
    (h : Rsa.new bits f f1 f2 rng = some k) :
    k.n = k.p * k.q ∧ k.p ≠ k.q ∧ bitLen k.n = bits := by
  obtain ⟨hinit, -⟩ := new_inv bits f f1 f2 rng k h
  obtain ⟨hn, hpq, hbits, -⟩ := hinit
  exact ⟨hn, hpq, hbits⟩

/-- C3 witness: the 8-bit key from the draws `[3, 5, 10]`. -/
theorem rsa_new_modulus_witness :
    Rsa.new 8 1 1 1 [3, 5, 10] = some goodKey ∧
    (goodKey.n = goodKey.p * goodKey.q ∧ goodKey.p ≠ goodKey.q ∧ bitLen goodKey.n = 8) :=
  ⟨by decide, rsa_new_modulus 8 1 1 1 [3, 5, 10] goodKey (by decide)⟩

/-- C4 (amended): `is_prime` rejects every even integer — including `2`
itself — and also rejects the small primes `3`, `5` and `7`, because the
Fermat stage iterates bases up to `min(7, n)` *inclusive of `n`*, and
`n^(n-1) ≡ 0 (mod n)`.  It accepts `11` and `13` and rejects the
composites `4, 6, 8, 9, 15, 21`. -/
theorem is_prime_small_values :
    (∀ n : Nat, n % 2 = 0 → is_prime n = false) ∧
    is_prime 3 = false ∧ is_prime 5 = false ∧ is_prime 7 = false ∧
    is_prime 11 = true ∧ is_prime 13 = true ∧
    is_prime 9 = false ∧ is_prime 15 = false ∧ is_prime 21 = false :=
  ⟨is_prime_even, by decide, by decide, by decide, by decide, by decide,
   by decide, by decide, by decide⟩

/-- C4 counterexample: the claim says `is_prime` accepts each of the
small primes `2, 3, 5, 7, 11, 13`; in fact it rejects `2`, `3`, `5` and
`7`. -/
theorem is_prime_rejects_small_primes :
    is_prime 2 = false ∧ is_prime 3 = false ∧ is_prime 5 = false ∧ is_prime 7 = false :=
  ⟨by decide, by decide, by decide, by decide⟩

/-- C4 witness: the even composite `6` instantiates the universally
quantified part of the amended statement. -/
theorem is_prime_small_values_witness : 6 % 2 = 0 ∧ is_prime 6 = false :=
  ⟨by decide, is_prime_small_values.1 6 (by decide)⟩

/-- C5 (amended): for odd `n ≥ 5`, acceptance by `prime_test_of_miller`
guarantees only that `2^(n-1) ≡ 1 (mod n)` (base `2` is a Fermat
non-witness).  The loop shifts its `n_minus_1` variable to `0` during the
base-2 pass, so base `3` is never exercised, and the square-root check
compares against the shifted exponent, so it does not enforce the
Miller–Rabin witness property even for base `2`. -/
theorem miller_accept_base_two (n : Nat) (hodd : Odd n) (h5 : 5 ≤ n)
    (hacc : prime_test_of_miller n = true) : powMod 2 (n - 1) n = 1 :=
  miller_accept_pow n (Nat.odd_iff.mp hodd) h5 hacc

/-- C5 counterexample: `n = 2047 = 23 * 89` is odd, `≥ 5`, accepted by
`prime_test_of_miller`, the base `3` satisfies `3 < n - 1`, yet `3` *is*
a Miller–Rabin witness for `2047` (already `3^2046 mod 2047 ≠ 1`). -/
theorem miller_base_three_counterexample :
    Odd 2047 ∧ 5 ≤ 2047 ∧ prime_test_of_miller 2047 = true ∧
    2 < 2047 - 1 ∧ 3 < 2047 - 1 ∧ ¬mrNonWitness 3 2047 :=
  ⟨Nat.odd_iff.mpr (by decide), by decide, by decide, by decide, by decide, by decide⟩

/-- C5 witness: `n = 13` is odd, `≥ 5`, accepted, and indeed
`2^12 mod 13 = 1`. -/
theorem miller_accept_base_two_witness :
    Odd 13 ∧ 5 ≤ 13 ∧ prime_test_of_miller 13 = true ∧ powMod 2 (13 - 1) 13 = 1 :=
  ⟨Nat.odd_iff.mpr (by decide), by decide, by decide,
   miller_accept_base_two 13 (Nat.odd_iff.mpr (by decide)) (by decide) (by decide)⟩

/-- C6 (amended): `calculate_d(λ, n, e)` reduces the Bézout coefficient
`y` of `e` from `gcd_ex(λ, e)` into the non-negative residue class
modulo *`n`* (not modulo `λ`): the result `d` satisfies `0 ≤ d < n` and
`d ≡ y (mod n)`, where `y` itself satisfies `e*y ≡ 1 (mod λ)`.
With that reduction, `e*d mod λ = 1` is *not* guaranteed, which is why
`init` re-checks it; the counterexample below shows it failing. -/
theorem calculate_d_reduced_mod_n (l n e : Nat) (hg : Nat.gcd e l = 1) (hn : 0 < n) :
    Rsa.calculate_d l n e < n ∧
    (n : Int) ∣ ((Rsa.calculate_d l n e : Int) - (Rsa.gcd_ex (l : Int) (e : Int)).2.2) ∧
    (l : Int) ∣ ((e : Int) * (Rsa.gcd_ex (l : Int) (e : Int)).2.2 - 1) := by
  obtain ⟨hlt, hcong⟩ := calculate_d_bounds l n e hn
  refine ⟨hlt, hcong, ?_⟩
  obtain ⟨hgcd, hbez⟩ :=
    gcd_ex_spec (l : Int) (e : Int) (Int.natCast_nonneg l) (Int.natCast_nonneg e)
  have hg1 : ((Int.gcd (l : Int) (e : Int)) : Int) = 1 := by
    rw [Int.gcd_natCast_natCast, Nat.gcd_comm, hg]
    exact Int.ofNat_one
  rw [hgcd, hg1] at hbez
  refine ⟨-(Rsa.gcd_ex (l : Int) (e : Int)).2.1, ?_⟩
  linear_combination hbez

/-- C6 counterexample: with `λ = 7`, `n = 10`, `e = 3` (and
`gcd(3, 7) = 1`), `calculate_d` returns `8`, which neither lies below
`λ = 7` nor satisfies `3 * 8 mod 7 = 1`: the reduction is modulo `n`,
not modulo `λ`. -/
theorem calculate_d_not_mod_lambda :
    Nat.gcd 3 7 = 1 ∧
    ¬(Rsa.calculate_d 7 10 3 < 7 ∧ 3 * Rsa.calculate_d 7 10 3 % 7 = 1) :=
  ⟨by decide, by decide⟩

/-- C6 witness: `λ = 120`, `n = 143`, `e = 11`. -/
theorem calculate_d_reduced_mod_n_witness :
    Nat.gcd 11 120 = 1 ∧ 0 < 143 ∧
    (Rsa.calculate_d 120 143 11 < 143 ∧
     ((143 : Nat) : Int) ∣ ((Rsa.calculate_d 120 143 11 : Int) -
       (Rsa.gcd_ex ((120 : Nat) : Int) ((11 : Nat) : Int)).2.2) ∧
     ((120 : Nat) : Int) ∣ (((11 : Nat) : Int) *
       (Rsa.gcd_ex ((120 : Nat) : Int) ((11 : Nat) : Int)).2.2 - 1)) :=
  ⟨by decide, by decide, calculate_d_reduced_mod_n 120 143 11 (by decide) (by decide)⟩

/-- C7: for all non-negative `a`, `b`, `gcd_ex(a, b)` returns a triple
`(g, x, y)` with `g = gcd(a, b)` and `a*x + b*y = g`, the coefficients
paired with the original argument order even when the algorithm swaps
internally. -/
theorem gcd_ex_bezout (a b : Int) (ha : 0 ≤ a) (hb : 0 ≤ b) :
    (Rsa.gcd_ex a b).1 = Int.gcd a b ∧
    a * (Rsa.gcd_ex a b).2.1 + b * (Rsa.gcd_ex a b).2.2 = (Rsa.gcd_ex a b).1 :=
  gcd_ex_spec a b ha hb

/-- C7 witness: `a = 240`, `b = 46` (internally swapped case exercised
by `46 < 240`). -/
theorem gcd_ex_bezout_witness :
    (0 : Int) ≤ 240 ∧ (0 : Int) ≤ 46 ∧
    ((Rsa.gcd_ex 240 46).1 = Int.gcd 240 46 ∧
     240 * (Rsa.gcd_ex 240 46).2.1 + 46 * (Rsa.gcd_ex 240 46).2.2 = (Rsa.gcd_ex 240 46).1) :=
  ⟨by decide, by decide, gcd_ex_bezout 240 46 (by decide) (by decide)⟩

/-- C8: for every `bits ≥ 2`, every value returned by
`random_prime(bits)` lies in `[2^(bits/2 - 1), 2^(bits/2 + 1))` and is
accepted by `is_prime`. -/
theorem random_prime_range (bits : Nat) (rng : List Nat) (p : Nat) (rest : List Nat)
    (hbits : 2 ≤ bits) (h : random_prime bits rng = some (p, rest)) :
    2 ^ (bits / 2 - 1) ≤ p ∧ p < 2 ^ (bits / 2 + 1) ∧ is_prime p = true := by
  obtain ⟨-, ⟨h1, h2⟩, h3⟩ := random_prime_inv bits rng p rest h
  rw [Nat.shiftRight_eq_div_pow, pow_one] at h1 h2
  exact ⟨h1, h2, h3⟩

/-- C8 witness: `random_prime 8` with the draw `3` returns `11`, inside
`[8, 32)` and accepted. -/
theorem random_prime_range_witness :
    2 ≤ 8 ∧ random_prime 8 [3] = some (11, []) ∧
    (2 ^ (8 / 2 - 1) ≤ 11 ∧ 11 < 2 ^ (8 / 2 + 1) ∧ is_prime 11 = true) :=
  ⟨by decide, by decide, random_prime_range 8 [3] 11 [] (by decide) (by decide)⟩

/-- C9: whenever `Rsa::new` returns a key (failures only ever retry; no
error value exists in its return type), the key has passed `check`: the
λ-inverse identity holds and every probe plaintext `0..8` round-trips. -/
theorem rsa_new_validates (bits f f1 f2 : Nat) (rng : List Nat) (k : Key)
    (h : Rsa.new bits f f1 f2 rng = some k) :
    Rsa.check k = true ∧ k.e * k.d % lam k = 1 ∧
    ∀ m, m ≤ 8 → Rsa.dp k (Rsa.ep k m) = m := by
  obtain ⟨-, hchk⟩ := new_inv bits f f1 f2 rng k h
  obtain ⟨hed, hprobe⟩ := check_inv k hchk
  exact ⟨hchk, hed, hprobe⟩

/-- C9 witness: the 8-bit key from the draws `[3, 5, 10]`. -/
theorem rsa_new_validates_witness :
    Rsa.new 8 1 1 1 [3, 5, 10] = some goodKey ∧
    (Rsa.check goodKey = true ∧ goodKey.e * goodKey.d % lam goodKey = 1 ∧
     ∀ m, m ≤ 8 → Rsa.dp goodKey (Rsa.ep goodKey m) = m) :=
  ⟨by decide, rsa_new_validates 8 1 1 1 [3, 5, 10] goodKey (by decide)⟩

/-- C10: every key returned by `Rsa::new` has `0 ≤ d < n` (`d` is a
`Nat`, so `0 ≤ d` is type-level): `calculate_d` reduces the Bézout
coefficient into the residue class modulo the modulus `n` — not modulo
`λ(n)` — re-adding `n` once if negative. -/
theorem rsa_new_d_lt_n (bits f f1 f2 : Nat) (rng : List Nat) (k : Key)
    (h : Rsa.new bits f f1 f2 rng = some k) :
    k.d < k.n ∧
    (k.n : Int) ∣ ((k.d : Int) - (Rsa.gcd_ex ((lam k : Nat) : Int) ((k.e : Nat) : Int)).2.2) := by
  obtain ⟨hinit, -⟩ := new_inv bits f f1 f2 rng k h
  obtain ⟨-, -, -, -, -, -, -, -, he1, hen, -, hd, -⟩ := hinit
  have hn : 0 < k.n := by omega
  obtain ⟨hlt, hcong⟩ := calculate_d_bounds (lam k) k.n k.e hn
  rw [hd]
  exact ⟨hlt, hcong⟩

/-- C10 witness: the 8-bit key from the draws `[3, 5, 10]`. -/
theorem rsa_new_d_lt_n_witness :
    Rsa.new 8 1 1 1 [3, 5, 10] = some goodKey ∧
    (goodKey.d < goodKey.n ∧
     (goodKey.n : Int) ∣ ((goodKey.d : Int) -
       (Rsa.gcd_ex ((lam goodKey : Nat) : Int) ((goodKey.e : Nat) : Int)).2.2)) :=
  ⟨by decide, rsa_new_d_lt_n 8 1 1 1 [3, 5, 10] goodKey (by decide)⟩
